import Mathlib

/-!
# mvdan/nowt: `windows-poll` and `go-mod-size`

A shallow embedding of the two programs of the repository.

* `windows-poll/main.go`: the buffer generator (`randBuffer`, `sizedBuffer`),
  the client write loop and the server per-connection handler of `main`.
* `go-mod-size/main.go`: `caseEncode` and `fetchSize`.

Bytes are natural numbers below 256, Go's `int` is `Int`, the `uint64` counters
are natural numbers reduced modulo `2 ^ 64` by every atomic add.  A panic of the
Go program is an explicit result of the model.
-/

set_option autoImplicit false

namespace WindowsPoll

/-! ## Constants of `windows-poll/main.go` -/

/-- Constant `bufferSizeMin = 1 << 10`. -/
def bufferSizeMin : Nat := 1 <<< 10

/-- Constant `bufferSizeMax = 512 << 10`. -/
def bufferSizeMax : Nat := 512 <<< 10

/-- Constant `parallelism = 8`. -/
def parallelism : Nat := 8

/-- Constant `numberWrittenBuffers = 8`. -/
def numberWrittenBuffers : Nat := 8

/-! ## Byte slices -/

/-- A Go `[]byte` seen from its first element: `data` holds the `len` visible
bytes, `spare` the bytes of the backing array between `len` and `cap`. -/
structure Slice where
  data : List Nat
  spare : List Nat
deriving DecidableEq, Repr

/-- Go's `len(s)`. -/
def Slice.len (s : Slice) : Nat := s.data.length

/-- Go's `cap(s)`. -/
def Slice.cap (s : Slice) : Nat := s.data.length + s.spare.length

/-- The backing array of a slice, from the slice's first element to its capacity. -/
def Slice.mem (s : Slice) : List Nat := s.data ++ s.spare

/-- How a run of the program stops abnormally. -/
inductive Fault where
  /-- A slice expression out of range (a Go run-time panic). -/
  | sliceBounds
  /-- The fill loop did not end within its iteration budget. -/
  | loopBudget
deriving DecidableEq, Repr

/-- The value of `sizePattern`: either a prefix of the backing array of
`reuseBuffer` (the append wrote in place), or bytes of an array of its own (the
append had to allocate). -/
inductive Pattern where
  | shared (len : Nat)
  | detached (bytes : List Nat)
deriving DecidableEq, Repr

/-- The bytes a pattern slice shows when the backing array of `reuseBuffer` is `mem`. -/
def Pattern.bytes (mem : List Nat) : Pattern → List Nat
  | .shared len => mem.take len
  | .detached bytes => bytes

/-- Go's `append(p, bs...)` on a pattern slice over the backing array `mem` of
`reuseBuffer`: written in place when the capacity allows it, into a fresh array
otherwise.  Returns the backing array afterwards and the resulting slice. -/
def goAppend (mem : List Nat) (p : Pattern) (bs : List Nat) : List Nat × Pattern :=
  match p with
  | .shared len =>
    if len + bs.length ≤ mem.length then
      (mem.take len ++ bs ++ mem.drop (len + bs.length), .shared (len + bs.length))
    else
      (mem, .detached (mem.take len ++ bs))
  | .detached bytes => (mem, .detached (bytes ++ bs))

/-- The decimal digits of `n` as ASCII bytes, pushed in front of `acc`, least
significant digit first; `budget` bounds the number of divisions by ten. -/
def decimalDigits : Nat → Nat → List Nat → List Nat
  | 0, _, acc => acc
  | budget + 1, n, acc =>
    if n < 10 then (48 + n) :: acc
    else decimalDigits budget (n / 10) ((48 + n % 10) :: acc)

/-- The decimal digits of a natural number as ASCII bytes, most significant first. -/
def decimalBytes (n : Nat) : List Nat := decimalDigits (n + 1) n []

/-- The bytes `strconv.AppendInt(dst, i, 10)` appends: a minus sign for a
negative number, then the decimal digits of its magnitude. -/
def formatInt (i : Int) : List Nat :=
  if i < 0 then 45 :: decimalBytes i.natAbs else decimalBytes i.natAbs

/-- Go's `copy(buf[done:], sizePattern)` where `buf` is the first `size` bytes of
`mem` and `src` the bytes of `sizePattern`: the number of bytes copied and the
backing array afterwards. -/
def copyAt (mem : List Nat) (size done : Nat) (src : List Nat) : Nat × List Nat :=
  let n := min (size - done) src.length
  (n, mem.take done ++ src.take n ++ mem.drop (done + n))

/-- The loop `for done := len(sizePattern); done < len(buf); { done += copy(buf[done:], sizePattern) }`
of `sizedBuffer`, with an iteration budget. -/
def fillLoop (sizePattern : Pattern) (size : Nat) : Nat → List Nat → Nat → Except Fault (List Nat)
  | budget, mem, done =>
    if done < size then
      match budget with
      | 0 => .error .loopBudget
      | budget + 1 =>
        -- `buf[done:]` needs `done ≤ len(buf)`
        if size < done then .error .sliceBounds
        else
          let r := copyAt mem size done (sizePattern.bytes mem)
          fillLoop sizePattern size budget r.2 (done + r.1)
    else .ok mem

/-- Function `sizedBuffer(reuseBuffer, size)`. -/
def sizedBuffer (reuseBuffer : Slice) (size : Int) : Except Fault Slice :=
  -- sizePattern := strconv.AppendInt(reuseBuffer[:0], int64(size), 10)
  let a := goAppend reuseBuffer.mem (.shared 0) (formatInt size)
  -- sizePattern = append(sizePattern, ' ')
  let b := goAppend a.1 a.2 [32]
  let sizePattern := b.2
  -- buf := reuseBuffer[:size]
  if size < 0 ∨ (reuseBuffer.cap : Int) < size then .error .sliceBounds
  else
    let n := size.toNat
    match fillLoop sizePattern n n b.1 (sizePattern.bytes b.1).length with
    | .error e => .error e
    | .ok mem => .ok ⟨mem.take n, mem.drop n⟩

/-- Function `randBuffer(reuseBuffer)`, where `r` is the value
`rand.Intn(bufferSizeMax-bufferSizeMin)` returns. -/
def randBuffer (reuseBuffer : Slice) (r : Nat) : Except Fault Slice :=
  let size : Int := (bufferSizeMin : Int) + (r : Int)
  sizedBuffer reuseBuffer size

/-! ## Reading a buffer back -/

/-- The bytes of a buffer before its first space byte. -/
def leadingToken (b : List Nat) : List Nat := b.takeWhile fun c => c != 32

/-- Whether a byte is an ASCII decimal digit. -/
def isDigitByte (c : Nat) : Bool := decide (48 ≤ c) && decide (c ≤ 57)

/-- The number a run of ASCII decimal digits denotes. -/
def parseDecimal (bs : List Nat) : Nat := bs.foldl (fun acc c => 10 * acc + (c - 48)) 0

/-- The pattern `sizedBuffer` repeats: the decimal digits of `size`, then one space. -/
def sizePatternBytes (size : Nat) : List Nat := decimalBytes size ++ [32]


/-! ## Counters, client sessions and server handlers of `main` -/

/-- The errors of a connection's `Write` and of `io.ReadAll` that `main` tells
apart: `errors.Is(err, os.ErrDeadlineExceeded)` holds of the first only. -/
inductive ConnError where
  | deadlineExceeded
  | other
deriving DecidableEq, Repr

/-- The two `uint64` counters `atomicFinished` and `atomicCanceled`. -/
structure Counters where
  finished : Nat
  canceled : Nat
deriving DecidableEq, Repr

/-- Go's `atomic.AddUint64(&x, delta)`: addition of `uint64`, which wraps around. -/
def atomicAddUint64 (x delta : Nat) : Nat := (x + delta) % 2 ^ 64

/-- How a goroutine body ends. -/
inductive Exit where
  | returned
  | panicked
deriving DecidableEq, Repr

/-- The result `(n, err)` of `conn.Write(buf)`. -/
structure WriteResult where
  n : Nat
  err : Option ConnError
deriving DecidableEq, Repr

/-- How the loop `for i := 0; i < numberWrittenBuffers; i++` of the client ends. -/
inductive LoopExit where
  /-- The loop condition became false. -/
  | completed
  /-- The `break` after a write that exceeded the deadline. -/
  | deadline
  /-- One of the `panic` calls, or a run-time panic of `randBuffer`. -/
  | panicked
deriving DecidableEq, Repr

/-- What a client session has done so far. -/
structure ClientState where
  /-- The shared counters. -/
  counters : Counters
  /-- The worker's `reuseBuffer`. -/
  reuse : Slice
  /-- The number of calls of `conn.Write`. -/
  writes : Nat
  /-- The bytes the connection has accepted, in order. -/
  sent : List Nat
deriving DecidableEq, Repr

/-- The worker's buffer `reuseBuffer := make([]byte, bufferSizeMax)`. -/
def freshReuseBuffer : Slice := ⟨List.replicate bufferSizeMax 0, []⟩

/-- The write loop of a client session.  `conn i buf` is the result of the call of
`conn.Write(buf)` in iteration `i`, `rand i` the value `rand.Intn` returns in
iteration `i`; the first argument counts the iterations still to run. -/
def writeLoop (conn : Nat → List Nat → WriteResult) (rand : Nat → Nat) :
    Nat → Nat → ClientState → ClientState × LoopExit
  | 0, _, st => (st, .completed)
  | k + 1, i, st =>
    -- buf := randBuffer(reuseBuffer)
    match randBuffer st.reuse (rand i) with
    | .error _ => (st, .panicked)
    | .ok buf =>
      let reuse : Slice := ⟨buf.mem.take st.reuse.len, buf.mem.drop st.reuse.len⟩
      -- n, err := conn.Write(buf)
      let w := conn i buf.data
      let st1 : ClientState :=
        { counters := st.counters, reuse := reuse, writes := st.writes + 1,
          sent := st.sent ++ buf.data.take w.n }
      match w.err with
      | some e =>
        if e = .deadlineExceeded then
          ({ st1 with counters :=
              { st1.counters with canceled := atomicAddUint64 st1.counters.canceled 1 } },
            .deadline)
        else (st1, .panicked)
      | none =>
        if w.n ≠ buf.len then (st1, .panicked)
        else writeLoop conn rand k (i + 1) st1

/-- The result of one client session. -/
structure SessionResult where
  state : ClientState
  loopExit : LoopExit
  /-- Whether `conn.Close()` was reached. -/
  closed : Bool
  exit : Exit
deriving DecidableEq, Repr

/-- One client session, from the write loop to `conn.Close()`. -/
def clientSession (conn : Nat → List Nat → WriteResult) (rand : Nat → Nat)
    (st : ClientState) : SessionResult :=
  let r := writeLoop conn rand numberWrittenBuffers 0 st
  match r.2 with
  | .panicked => ⟨r.1, .panicked, false, .panicked⟩
  | e => ⟨r.1, e, true, .returned⟩

/-- The result `(buf, err)` of `io.ReadAll(conn)`. -/
structure ReadAllResult where
  buf : List Nat
  err : Option ConnError
deriving DecidableEq, Repr

/-- The per-connection handler of the server, after `io.ReadAll(conn)` returned `r`. -/
def serverHandler (c : Counters) (r : ReadAllResult) : Counters × Exit :=
  match r.err with
  | some e =>
    if e = .deadlineExceeded then
      ({ c with canceled := atomicAddUint64 c.canceled 1 }, .returned)
    else (c, .panicked)
  | none =>
    let min := numberWrittenBuffers * bufferSizeMin
    let max := numberWrittenBuffers * bufferSizeMax
    if r.buf.length < min ∨ r.buf.length > max then (c, .panicked)
    else ({ c with finished := atomicAddUint64 c.finished 1 }, .returned)

/-- The events that touch the counters: a client session run on a connection, or a
server handler run on the result of its read. -/
inductive Event where
  | client (conn : Nat → List Nat → WriteResult) (rand : Nat → Nat) (reuse : Slice)
  | server (r : ReadAllResult)

/-- One event on the counters; `none` when the process panics. -/
def step (c : Counters) : Event → Option Counters
  | .client conn rand reuse =>
    let res := clientSession conn rand ⟨c, reuse, 0, []⟩
    if res.exit = .returned then some res.state.counters else none
  | .server r =>
    let res := serverHandler c r
    if res.2 = .returned then some res.1 else none

/-- A run of events from given counters. -/
def run : Counters → List Event → Option Counters
  | c, [] => some c
  | c, e :: es =>
    match step c e with
    | none => none
    | some c1 => run c1 es

/-- The counters at process start: `var atomicFinished uint64`, `var atomicCanceled uint64`. -/
def initialCounters : Counters := ⟨0, 0⟩

end WindowsPoll

namespace GoModSize

/-! ## `go-mod-size/main.go` -/

/-- Go's Unicode tables for the runes above `unicode.MaxASCII`, which the
repository takes from the standard library. -/
structure UnicodeTables where
  isUpper : Char → Bool
  toLower : Char → Char

/-- Go's `unicode.IsUpper`: on ASCII the letters `'A'` to `'Z'`. -/
def isUpper (T : UnicodeTables) (r : Char) : Bool :=
  if r.toNat ≤ 0x7F then decide (65 ≤ r.toNat ∧ r.toNat ≤ 90) else T.isUpper r

/-- Go's `unicode.ToLower`: on ASCII, `r += 'a' - 'A'` for `'A' <= r && r <= 'Z'`. -/
def toLower (T : UnicodeTables) (r : Char) : Char :=
  if r.toNat ≤ 0x7F then
    if 65 ≤ r.toNat ∧ r.toNat ≤ 90 then Char.ofNat (r.toNat + (97 - 65)) else r
  else T.toLower r

/-- Function `caseEncode(s)` on the runes of `s`: the loop over `range s` that
writes into the `strings.Builder`. -/
def caseEncode (T : UnicodeTables) (s : List Char) : List Char :=
  s.foldl (fun b r => if isUpper T r then (b ++ ['!']) ++ [toLower T r] else b ++ [r]) []

/-- Go's `strings.Split(s, ",")`. -/
def splitComma : List Char → List (List Char)
  | [] => [[]]
  | c :: cs =>
    if c = ',' then [] :: splitComma cs
    else
      match splitComma cs with
      | [] => [[c]]
      | x :: xs => (c :: x) :: xs

/-- Go's `strings.HasPrefix(s, prefix)`. -/
def startsWith (s pre : List Char) : Bool := pre.isPrefixOf s

/-- The fields of `*http.Response` that `fetchSize` reads. -/
structure Response where
  statusCode : Int
  contentLength : Int
deriving DecidableEq, Repr

/-- The result `(resp, err)` of `http.Head(zipURL)`: `resp` is `none` for a nil
pointer, `err` is `none` for a nil error. -/
structure HeadResult where
  resp : Option Response
  err : Option (List Char)
deriving DecidableEq, Repr

/-- The value of `err` when `fetchSize` logs it. -/
inductive HeadError where
  /-- The error `http.Head` returned. -/
  | transport (msg : List Char)
  /-- The error `fmt.Errorf("%d %s", code, http.StatusText(code))`. -/
  | status (code : Int)
deriving DecidableEq, Repr

/-- The errors `fetchSize` returns. -/
inductive FetchError where
  /-- The error "only http and https proxies are supported: %q". -/
  | unsupportedProxy (proxy : List Char)
  /-- The error "did not find %s@%s on any proxy". -/
  | notFound (path version : List Char)
deriving DecidableEq, Repr

/-- One line of `log.Printf("HEAD %s: %v", zipURL, err)`. -/
structure LogLine where
  zipURL : List Char
  err : HeadError
deriving DecidableEq, Repr

/-- How a call of `fetchSize` ends, with the lines it logged. -/
inductive Outcome where
  | returned (size : Int) (err : Option FetchError) (log : List LogLine)
  /-- The nil pointer dereference of `resp.StatusCode` when `resp` is nil. -/
  | nilDereference (log : List LogLine)
deriving DecidableEq, Repr

/-- The loop of `fetchSize` over the proxies.  `head i url` is the result of
`http.Head(url)` for the proxy at position `i`. -/
def fetchLoop (T : UnicodeTables) (head : Nat → List Char → HeadResult)
    (path version : List Char) : List (List Char) → Nat → List LogLine → Outcome
  | [], _, log => .returned 0 (some (.notFound path version)) log
  | proxy :: rest, i, log =>
    if !startsWith proxy "http://".toList && !startsWith proxy "https://".toList then
      .returned 0 (some (.unsupportedProxy proxy)) log
    else
      let zipURL := proxy ++ "/".toList ++ caseEncode T path ++ "/@v/".toList
        ++ caseEncode T version ++ ".zip".toList
      let r := head i zipURL
      -- if code := resp.StatusCode; err == nil && code >= 300
      match r.resp with
      | none => .nilDereference log
      | some resp =>
        let code := resp.statusCode
        let err : Option HeadError :=
          if r.err = none ∧ code ≥ 300 then some (.status code) else r.err.map .transport
        match err with
        | some e => fetchLoop T head path version rest (i + 1) (log ++ [⟨zipURL, e⟩])
        | none => .returned resp.contentLength none log

/-- Function `fetchSize(path, version)`, where `goproxy` is `goEnv.GOPROXY`. -/
def fetchSize (T : UnicodeTables) (head : Nat → List Char → HeadResult)
    (goproxy path version : List Char) : Outcome :=
  fetchLoop T head path version (splitComma goproxy) 0 []

end GoModSize

namespace WindowsPoll

/-! ## Lemmas on the decimal digits -/

theorem decimalDigits_acc : ∀ (budget n : Nat) (acc : List Nat),
    decimalDigits budget n acc = decimalDigits budget n [] ++ acc := by
  intro budget
  induction budget with
  | zero => intro n acc; simp [decimalDigits]
  | succ budget ih =>
    intro n acc
    unfold decimalDigits
    by_cases h : n < 10
    · simp [h]
    · simp only [h, if_false]
      rw [ih (n / 10) ((48 + n % 10) :: acc), ih (n / 10) [48 + n % 10]]
      simp

theorem decimalDigits_isDigit : ∀ (budget n : Nat) (c : Nat),
    c ∈ decimalDigits budget n [] → 48 ≤ c ∧ c ≤ 57 := by
  intro budget
  induction budget with
  | zero => intro n c hc; simp [decimalDigits] at hc
  | succ budget ih =>
    intro n c hc
    unfold decimalDigits at hc
    by_cases h : n < 10
    · simp only [h, if_true, List.mem_singleton] at hc
      omega
    · simp only [h, if_false] at hc
      rw [decimalDigits_acc] at hc
      rcases List.mem_append.mp hc with h1 | h1
      · exact ih _ _ h1
      · simp only [List.mem_singleton] at h1
        omega

theorem parseDecimal_decimalDigits : ∀ (budget n : Nat), n < budget →
    parseDecimal (decimalDigits budget n []) = n := by
  intro budget
  induction budget with
  | zero => intro n h; omega
  | succ budget ih =>
    intro n hn
    unfold decimalDigits
    by_cases h : n < 10
    · simp [h, parseDecimal]
    · simp only [h, if_false]
      rw [decimalDigits_acc]
      have h2 := ih (n / 10) (by omega)
      unfold parseDecimal at h2 ⊢
      rw [List.foldl_append, h2]
      simp only [List.foldl_cons, List.foldl_nil]
      omega

theorem decimalDigits_length_le : ∀ (budget n k : Nat), n < 10 ^ (k + 1) →
    (decimalDigits budget n []).length ≤ k + 1 := by
  intro budget
  induction budget with
  | zero => intro n k _; simp [decimalDigits]
  | succ budget ih =>
    intro n k hn
    unfold decimalDigits
    by_cases h : n < 10
    · simp [h]
    · simp only [h, if_false]
      rw [decimalDigits_acc]
      cases k with
      | zero => simp at hn; omega
      | succ k =>
        have h2 := ih (n / 10) k (by rw [Nat.pow_succ] at hn; omega)
        simp only [List.length_append, List.length_singleton]
        omega

theorem decimalDigits_length_pos : ∀ (budget n : Nat),
    1 ≤ (decimalDigits (budget + 1) n []).length := by
  intro budget n
  unfold decimalDigits
  by_cases h : n < 10
  · simp [h]
  · simp only [h, if_false]
    rw [decimalDigits_acc]
    simp

/-! ## Lemmas on the fill loop -/

theorem mod_of_dvd_le (m d i : Nat) (hd : m ∣ d) (h1 : d ≤ i) (h2 : i < d + m) :
    i % m = i - d := by
  obtain ⟨k, rfl⟩ := hd
  have : i = m * k + (i - m * k) := by omega
  rw [this, Nat.mul_add_mod, Nat.mod_eq_of_lt (by omega)]
  omega

theorem fillLoop_shared (p : List Nat) (hp : 0 < p.length) (size : Nat) :
    ∀ (budget : Nat) (mem : List Nat) (done : Nat),
      mem.take p.length = p → p.length ≤ done → done ≤ size → size ≤ mem.length →
      (p.length ∣ done ∨ done = size) →
      (∀ i, i < done → mem[i]? = p[i % p.length]?) →
      size - done ≤ budget →
      ∃ mem', fillLoop (.shared p.length) size budget mem done = .ok mem' ∧
        mem'.length = mem.length ∧ ∀ i, i < size → mem'[i]? = p[i % p.length]? := by
  intro budget
  induction budget with
  | zero =>
    intro mem done _ _ hds _ _ hidx hb
    have hd : done = size := by omega
    refine ⟨mem, ?_, rfl, ?_⟩
    · unfold fillLoop; simp [hd]
    · intro i hi; exact hidx i (by omega)
  | succ budget ih =>
    intro mem done htake hpd hds hsm hdvd hidx hb
    by_cases hlt : done < size
    · have hnot : ¬ size < done := by omega
      unfold fillLoop
      simp only [hlt, hnot, if_true, if_false, Pattern.bytes, copyAt, htake]
      have hn1 : 1 ≤ min (size - done) p.length := by
        simp only [Nat.le_min]; omega
      have hn2 : min (size - done) p.length ≤ size - done := Nat.min_le_left _ _
      have hn3 : min (size - done) p.length ≤ p.length := Nat.min_le_right _ _
      have hn4 : min (size - done) p.length = p.length ∨ min (size - done) p.length = size - done := by
        omega
      generalize min (size - done) p.length = n at hn1 hn2 hn3 hn4
      have hdv : p.length ∣ done := by
        rcases hdvd with h | h
        · exact h
        · omega
      have hlen : (List.take done mem ++ List.take n p ++ List.drop (done + n) mem).length
          = mem.length := by
        simp only [List.length_append, List.length_take, List.length_drop]
        omega
      have htake2 : List.take p.length
          (List.take done mem ++ List.take n p ++ List.drop (done + n) mem) = p := by
        rw [List.append_assoc, List.take_append_of_le_length, List.take_take]
        · rw [Nat.min_eq_left hpd]; exact htake
        · rw [List.length_take]; omega
      have hdvd2 : p.length ∣ done + n ∨ done + n = size := by
        rcases hn4 with h | h
        · left; rw [h]; exact Dvd.dvd.add hdv (dvd_refl _)
        · right; omega
      have hidx2 : ∀ i, i < done + n →
          (List.take done mem ++ List.take n p ++ List.drop (done + n) mem)[i]?
            = p[i % p.length]? := by
        intro i hi
        by_cases hid : i < done
        · rw [List.append_assoc, List.getElem?_append_left (by rw [List.length_take]; omega),
            List.getElem?_take, if_pos (by omega)]
          exact hidx i hid
        · have hmod : i % p.length = i - done := mod_of_dvd_le _ _ _ hdv (by omega) (by omega)
          have hl : (List.take done mem).length = done := by rw [List.length_take]; omega
          rw [List.append_assoc, List.getElem?_append_right (by omega), hl,
            List.getElem?_append_left (by rw [List.length_take]; omega),
            List.getElem?_take, if_pos (by omega), hmod]
      obtain ⟨mem', h1, h2, h3⟩ := ih
        (List.take done mem ++ List.take n p ++ List.drop (done + n) mem) (done + n)
        htake2 (by omega) (by omega) (by omega) hdvd2 hidx2 (by omega)
      exact ⟨mem', h1, by omega, h3⟩
    · have hd : done = size := by omega
      refine ⟨mem, ?_, rfl, ?_⟩
      · unfold fillLoop; simp [hlt]
      · intro i hi; exact hidx i (by omega)

/-! ## Lemmas on `sizedBuffer` -/

theorem formatInt_natCast (n : Nat) : formatInt (n : Int) = decimalBytes n := by
  have h : ¬ ((n : Int) < 0) := by omega
  simp [formatInt, h]

theorem goAppend_digits (mem ds : List Nat) (h : ds.length ≤ mem.length) :
    goAppend mem (.shared 0) ds = (ds ++ mem.drop ds.length, .shared ds.length) := by
  simp [goAppend, h]

theorem goAppend_space (mem ds : List Nat) (h : ds.length + 1 ≤ mem.length) :
    goAppend (ds ++ mem.drop ds.length) (.shared ds.length) [32]
      = (ds ++ [32] ++ mem.drop (ds.length + 1), .shared (ds.length + 1)) := by
  have h1 : ds.length + 1 ≤ (ds ++ mem.drop ds.length).length := by
    simp only [List.length_append, List.length_drop]; omega
  simp only [goAppend, List.length_singleton, h1, if_true]
  congr 1
  rw [List.take_left, List.drop_append_eq_append_drop]
  have h2 : ds.length + 1 - ds.length = 1 := by omega
  have h3 : List.drop (ds.length + 1) ds = [] := List.drop_eq_nil_of_le (by omega)
  simp [h2, h3, Nat.add_comm]

theorem sizedBuffer_fill (reuse : Slice) (n : Nat) (hcap : n ≤ reuse.cap)
    (hp : (sizePatternBytes n).length ≤ n) :
    ∃ b, sizedBuffer reuse (n : Int) = .ok b ∧ b.data.length = n ∧ b.cap = reuse.cap ∧
      ∀ i, i < n → b.data[i]? = (sizePatternBytes n)[i % (sizePatternBytes n).length]? := by
  have hml : reuse.mem.length = reuse.cap := by simp [Slice.mem, Slice.cap]
  have hpl : (sizePatternBytes n).length = (decimalBytes n).length + 1 := by
    simp [sizePatternBytes]
  have hcond : ¬ (((n : Int) < 0) ∨ ((reuse.cap : Int) < (n : Int))) := by omega
  have hmem2 : (decimalBytes n ++ [32] ++ reuse.mem.drop ((decimalBytes n).length + 1)).length
      = reuse.cap := by
    simp only [List.length_append, List.length_drop, List.length_singleton]; omega
  have htk : List.take (sizePatternBytes n).length
      (decimalBytes n ++ [32] ++ reuse.mem.drop ((decimalBytes n).length + 1))
        = sizePatternBytes n := by
    unfold sizePatternBytes
    exact List.take_left _ _
  have hidx0 : ∀ i, i < (sizePatternBytes n).length →
      (decimalBytes n ++ [32] ++ reuse.mem.drop ((decimalBytes n).length + 1))[i]?
        = (sizePatternBytes n)[i % (sizePatternBytes n).length]? := by
    intro i hi
    rw [Nat.mod_eq_of_lt hi]
    unfold sizePatternBytes at hi ⊢
    exact List.getElem?_append_left hi
  obtain ⟨mem', h1, h2, h3⟩ := fillLoop_shared (sizePatternBytes n) (by omega) n n
    (decimalBytes n ++ [32] ++ reuse.mem.drop ((decimalBytes n).length + 1))
    (sizePatternBytes n).length htk (le_refl _) hp (by omega) (Or.inl (dvd_refl _)) hidx0
    (by omega)
  refine ⟨⟨mem'.take n, mem'.drop n⟩, ?_, ?_, ?_, ?_⟩
  · unfold sizedBuffer
    rw [formatInt_natCast, goAppend_digits _ _ (by omega)]
    simp only []
    rw [goAppend_space _ _ (by omega)]
    simp only [hcond, if_false, Int.toNat_ofNat, Pattern.bytes]
    rw [hpl] at htk h1
    rw [htk, hpl, h1]
  · have hm : mem'.length = reuse.cap := by rw [h2, hmem2]
    simp only [List.length_take]; omega
  · have hm : mem'.length = reuse.data.length + reuse.spare.length := by rw [h2, hmem2]; rfl
    simp only [Slice.cap, List.length_take, List.length_drop]; omega
  · intro i hi
    simp only []
    rw [List.getElem?_take, if_pos hi]
    exact h3 i hi

theorem decimalBytes_length_le (n k : Nat) (h : n < 10 ^ (k + 1)) :
    (decimalBytes n).length ≤ k + 1 :=
  decimalDigits_length_le _ _ _ h

theorem bufferSizeMin_eq : bufferSizeMin = 1024 := by decide

theorem bufferSizeMax_eq : bufferSizeMax = 524288 := by decide

theorem sizePattern_fits (n : Nat) (h1 : bufferSizeMin ≤ n) (h2 : n < bufferSizeMax) :
    (sizePatternBytes n).length ≤ n := by
  rw [bufferSizeMin_eq] at h1
  rw [bufferSizeMax_eq] at h2
  have h3 : (decimalBytes n).length ≤ 5 + 1 :=
    decimalBytes_length_le n 5 (by norm_num; omega)
  have h4 : (sizePatternBytes n).length = (decimalBytes n).length + 1 := by
    simp [sizePatternBytes]
  omega

/-! ## The buffer generator -/

theorem randBuffer_fill (reuse : Slice) (r : Nat) (hlen : bufferSizeMax ≤ reuse.len)
    (hr : r < bufferSizeMax - bufferSizeMin) :
    ∃ b, randBuffer reuse r = .ok b ∧ b.data.length = bufferSizeMin + r ∧ b.cap = reuse.cap ∧
      ∀ i, i < bufferSizeMin + r → b.data[i]? =
        (sizePatternBytes (bufferSizeMin + r))[i % (sizePatternBytes (bufferSizeMin + r)).length]? := by
  have hcap : reuse.len ≤ reuse.cap := by simp [Slice.len, Slice.cap]
  have h := sizedBuffer_fill reuse (bufferSizeMin + r) (by omega)
    (sizePattern_fits _ (by omega) (by omega))
  simpa [randBuffer] using h

/-- C1: for a reuse buffer with `len(reuse) >= bufferSizeMax` and a random value
`r` in `[0, bufferSizeMax-bufferSizeMin)`, `randBuffer(reuse)` returns a buffer
`b` with `len(b) = bufferSizeMin + r`, so `bufferSizeMin <= len(b) < bufferSizeMax`,
that is `1024 <= len(b) < 524288`. -/
theorem randBuffer_len (reuse : Slice) (r : Nat) (hlen : bufferSizeMax ≤ reuse.len)
    (hr : r < bufferSizeMax - bufferSizeMin) :
    ∃ b, randBuffer reuse r = .ok b ∧ b.len = bufferSizeMin + r ∧
      bufferSizeMin ≤ b.len ∧ b.len < bufferSizeMax ∧ 1024 ≤ b.len ∧ b.len < 524288 := by
  obtain ⟨b, hb, hl, _, _⟩ := randBuffer_fill reuse r hlen hr
  have h1 := bufferSizeMin_eq
  have h2 := bufferSizeMax_eq
  refine ⟨b, hb, hl, ?_, ?_, ?_, ?_⟩ <;> simp only [Slice.len] <;> omega

theorem randBuffer_len_witness :
    ∃ b, randBuffer ⟨List.replicate bufferSizeMax 0, []⟩ 5 = .ok b ∧ b.len = bufferSizeMin + 5 ∧
      bufferSizeMin ≤ b.len ∧ b.len < bufferSizeMax ∧ 1024 ≤ b.len ∧ b.len < 524288 :=
  randBuffer_len ⟨List.replicate bufferSizeMax 0, []⟩ 5 (by simp [Slice.len]) (by decide)

/-- C2: for `bufferSizeMin <= size < bufferSizeMax` and `len(reuse) >= bufferSizeMax`,
`sizedBuffer(reuse, size)` returns a buffer of length `size` whose byte at every
index `i < size` is the byte at index `i mod len(p)` of the pattern `p`, the
decimal digits of `size` followed by one space. -/
theorem sizedBuffer_pattern (reuse : Slice) (size : Int) (hmin : (bufferSizeMin : Int) ≤ size)
    (hmax : size < (bufferSizeMax : Int)) (hlen : bufferSizeMax ≤ reuse.len) :
    ∃ b, sizedBuffer reuse size = .ok b ∧ (b.len : Int) = size ∧
      sizePatternBytes size.toNat = decimalBytes size.toNat ++ [32] ∧
      ∀ i, i < b.len → ∃ c, b.data[i]? = some c ∧
        (sizePatternBytes size.toNat)[i % (sizePatternBytes size.toNat).length]? = some c := by
  have hcap : reuse.len ≤ reuse.cap := by simp [Slice.len, Slice.cap]
  obtain ⟨n, rfl⟩ : ∃ n : Nat, size = (n : Int) := ⟨size.toNat, by omega⟩
  have hfit := sizePattern_fits n (by omega) (by omega)
  obtain ⟨b, hb, hl, _, hidx⟩ := sizedBuffer_fill reuse n (by omega) hfit
  refine ⟨b, hb, by simp [Slice.len, hl], rfl, ?_⟩
  intro i hi
  simp only [Slice.len, hl] at hi
  simp only [Int.toNat_ofNat]
  have hil : i < b.data.length := by omega
  refine ⟨b.data[i], List.getElem?_eq_getElem hil, ?_⟩
  rw [← hidx i hi]
  exact List.getElem?_eq_getElem hil

theorem sizedBuffer_pattern_witness :
    ∃ b, sizedBuffer ⟨List.replicate bufferSizeMax 0, []⟩ 2048 = .ok b ∧ (b.len : Int) = 2048 ∧
      sizePatternBytes (2048 : Int).toNat = decimalBytes (2048 : Int).toNat ++ [32] ∧
      ∀ i, i < b.len → ∃ c, b.data[i]? = some c ∧
        (sizePatternBytes (2048 : Int).toNat)[i % (sizePatternBytes (2048 : Int).toNat).length]?
          = some c :=
  sizedBuffer_pattern ⟨List.replicate bufferSizeMax 0, []⟩ 2048 (by decide) (by decide)
    (by simp [Slice.len])

theorem takeWhile_notSpace (ds rest : List Nat) (h : ∀ c ∈ ds, 48 ≤ c ∧ c ≤ 57) :
    leadingToken (ds ++ 32 :: rest) = ds := by
  unfold leadingToken
  induction ds with
  | nil => simp
  | cons d ds ih =>
    have hd := h d (List.mem_cons_self _ _)
    have hne : (d != 32) = true := by
      simp only [bne_iff_ne, ne_eq]; omega
    rw [List.cons_append, List.takeWhile_cons, hne]
    simp only [if_true]
    rw [ih (fun c hc => h c (List.mem_cons_of_mem _ hc))]

/-- C3: a buffer `b` that `randBuffer` generates (`len(reuse) >= bufferSizeMax`,
random value in range) has a space byte, the bytes before its first space byte are
decimal digits, at least one, and parsing them as a decimal integer yields `len(b)`. -/
theorem randBuffer_leadingToken (reuse : Slice) (r : Nat) (hlen : bufferSizeMax ≤ reuse.len)
    (hr : r < bufferSizeMax - bufferSizeMin) :
    ∃ b, randBuffer reuse r = .ok b ∧
      b.data[(leadingToken b.data).length]? = some 32 ∧
      leadingToken b.data ≠ [] ∧
      (∀ c ∈ leadingToken b.data, isDigitByte c = true) ∧
      parseDecimal (leadingToken b.data) = b.len := by
  obtain ⟨b, hb, hl, _, hidx⟩ := randBuffer_fill reuse r hlen hr
  refine ⟨b, hb, ?_⟩
  have h1 := bufferSizeMin_eq
  have h2 := bufferSizeMax_eq
  have hfit := sizePattern_fits (bufferSizeMin + r) (by omega) (by omega)
  -- the buffer starts with the pattern
  have hpre : b.data.take (sizePatternBytes (bufferSizeMin + r)).length
      = sizePatternBytes (bufferSizeMin + r) := by
    apply List.ext_getElem?
    intro i
    by_cases hi : i < (sizePatternBytes (bufferSizeMin + r)).length
    · rw [List.getElem?_take, if_pos hi, hidx i (by omega), Nat.mod_eq_of_lt hi]
    · rw [List.getElem?_take, if_neg hi]
      exact (List.getElem?_eq_none (by omega)).symm
  have hsplit : b.data = decimalBytes (bufferSizeMin + r) ++
      32 :: b.data.drop (sizePatternBytes (bufferSizeMin + r)).length := by
    conv_lhs => rw [← List.take_append_drop (sizePatternBytes (bufferSizeMin + r)).length b.data,
      hpre]
    simp [sizePatternBytes]
  have hdig : ∀ c ∈ decimalBytes (bufferSizeMin + r), 48 ≤ c ∧ c ≤ 57 :=
    fun c hc => decimalDigits_isDigit _ _ c hc
  have htok : leadingToken b.data = decimalBytes (bufferSizeMin + r) := by
    rw [hsplit]; exact takeWhile_notSpace _ _ hdig
  rw [htok]
  refine ⟨?_, ?_, ?_, ?_⟩
  · rw [hsplit, List.getElem?_append_right (le_refl _)]; simp
  · intro h0
    have := decimalDigits_length_pos (bufferSizeMin + r) (bufferSizeMin + r)
    unfold decimalBytes at h0
    rw [h0] at this
    simp at this
  · intro c hc
    have := hdig c hc
    simp [isDigitByte, this.1, this.2]
  · simp only [Slice.len, hl]
    exact parseDecimal_decimalDigits _ _ (by omega)

theorem randBuffer_leadingToken_witness :
    ∃ b, randBuffer ⟨List.replicate bufferSizeMax 0, []⟩ 7 = .ok b ∧
      b.data[(leadingToken b.data).length]? = some 32 ∧
      leadingToken b.data ≠ [] ∧
      (∀ c ∈ leadingToken b.data, isDigitByte c = true) ∧
      parseDecimal (leadingToken b.data) = b.len :=
  randBuffer_leadingToken ⟨List.replicate bufferSizeMax 0, []⟩ 7 (by simp [Slice.len])
    (by decide)

/-- C4: the buffer generator has no error condition: for `len(reuse) >= bufferSizeMax`
and every value the random source can return, `randBuffer(reuse)` returns a buffer,
so no slice expression of `sizedBuffer` is out of range and the fill loop ends. -/
theorem randBuffer_returns (reuse : Slice) (r : Nat) (hlen : bufferSizeMax ≤ reuse.len)
    (hr : r < bufferSizeMax - bufferSizeMin) :
    (∃ b, randBuffer reuse r = .ok b) ∧
      randBuffer reuse r ≠ .error .sliceBounds ∧ randBuffer reuse r ≠ .error .loopBudget := by
  obtain ⟨b, hb, _⟩ := randBuffer_fill reuse r hlen hr
  refine ⟨⟨b, hb⟩, ?_, ?_⟩ <;> rw [hb] <;> simp

theorem randBuffer_returns_witness :
    (∃ b, randBuffer ⟨List.replicate bufferSizeMax 0, [1, 2]⟩ 0 = .ok b) ∧
      randBuffer ⟨List.replicate bufferSizeMax 0, [1, 2]⟩ 0 ≠ .error .sliceBounds ∧
      randBuffer ⟨List.replicate bufferSizeMax 0, [1, 2]⟩ 0 ≠ .error .loopBudget :=
  randBuffer_returns ⟨List.replicate bufferSizeMax 0, [1, 2]⟩ 0 (by simp [Slice.len])
    (by decide)

/-! ## Lemmas on the client write loop -/

theorem writeLoop_step_full (conn : Nat → List Nat → WriteResult) (rand : Nat → Nat)
    (m i : Nat) (st : ClientState) (hlen : bufferSizeMax ≤ st.reuse.len)
    (hr : rand i < bufferSizeMax - bufferSizeMin)
    (hfull : ∀ buf, conn i buf = ⟨buf.length, none⟩) :
    ∃ st1, writeLoop conn rand (m + 1) i st = writeLoop conn rand m (i + 1) st1 ∧
      st1.counters = st.counters ∧ st1.writes = st.writes + 1 ∧
      st1.reuse.len = st.reuse.len ∧
      st1.sent.length = st.sent.length + (bufferSizeMin + rand i) := by
  obtain ⟨b, hb, hl, hc, _⟩ := randBuffer_fill st.reuse (rand i) hlen hr
  have hcap : st.reuse.len ≤ st.reuse.cap := by simp [Slice.len, Slice.cap]
  have hmem : b.mem.length = b.cap := by simp [Slice.mem, Slice.cap]
  refine ⟨⟨st.counters, ⟨b.mem.take st.reuse.len, b.mem.drop st.reuse.len⟩, st.writes + 1,
    st.sent ++ b.data.take b.data.length⟩, ?_, rfl, rfl, ?_, ?_⟩
  · rw [writeLoop, hb]
    simp only [hfull, Slice.len, ne_eq, not_true_eq_false, if_false]
  · simp only [Slice.len, List.length_take]
    simp only [Slice.len] at hcap
    omega
  · simp only [List.length_append, List.length_take]
    omega

theorem writeLoop_full (conn : Nat → List Nat → WriteResult) (rand : Nat → Nat)
    (k : Nat) (st : ClientState) (hlen : bufferSizeMax ≤ st.reuse.len)
    (hr : ∀ i, rand i < bufferSizeMax - bufferSizeMin) :
    ∀ j, j ≤ k → (∀ i, i < j → ∀ buf, conn i buf = ⟨buf.length, none⟩) →
      ∃ stj, writeLoop conn rand k 0 st = writeLoop conn rand (k - j) j stj ∧
        stj.counters = st.counters ∧ stj.writes = st.writes + j ∧
        stj.reuse.len = st.reuse.len ∧
        stj.sent.length = st.sent.length
          + ((List.range j).map fun i => bufferSizeMin + rand i).sum := by
  intro j
  induction j with
  | zero => intro _ _; exact ⟨st, by simp⟩
  | succ j ih =>
    intro hj hfull
    obtain ⟨stj, h1, h2, h3, h4, h5⟩ := ih (by omega) (fun i hi => hfull i (by omega))
    obtain ⟨m, hm⟩ : ∃ m, k - j = m + 1 := ⟨k - j - 1, by omega⟩
    obtain ⟨st1, g1, g2, g3, g4, g5⟩ := writeLoop_step_full conn rand m j stj
      (by omega) (hr j) (hfull j (by omega))
    refine ⟨st1, ?_, by rw [g2, h2], by omega, by omega, ?_⟩
    · rw [h1, hm, g1]
      have : k - (j + 1) = m := by omega
      rw [this]
    · rw [g5, h5, List.range_succ, List.map_append, List.sum_append]
      simp only [List.map_cons, List.map_nil, List.sum_cons, List.sum_nil]
      omega

theorem sum_range_bounds (rand : Nat → Nat)
    (hr : ∀ i, rand i < bufferSizeMax - bufferSizeMin) (j : Nat) :
    j * bufferSizeMin ≤ ((List.range j).map fun i => bufferSizeMin + rand i).sum ∧
      ((List.range j).map fun i => bufferSizeMin + rand i).sum ≤ j * bufferSizeMax := by
  induction j with
  | zero => simp
  | succ j ih =>
    rw [List.range_succ, List.map_append, List.sum_append]
    simp only [List.map_cons, List.map_nil, List.sum_cons, List.sum_nil, Nat.succ_mul]
    have := hr j
    omega

theorem writeLoop_counters (conn : Nat → List Nat → WriteResult) (rand : Nat → Nat) :
    ∀ (k i : Nat) (st : ClientState),
      ((writeLoop conn rand k i st).2 = .deadline ∧
        (writeLoop conn rand k i st).1.counters
          = ⟨st.counters.finished, atomicAddUint64 st.counters.canceled 1⟩) ∨
      ((writeLoop conn rand k i st).2 ≠ .deadline ∧
        (writeLoop conn rand k i st).1.counters = st.counters) := by
  intro k
  induction k with
  | zero => intro i st; right; simp [writeLoop]
  | succ k ih =>
    intro i st
    rw [writeLoop]
    cases hb : randBuffer st.reuse (rand i) with
    | error e => right; simp
    | ok b =>
      simp only []
      cases hw : (conn i b.data).err with
      | some e =>
        by_cases he : e = .deadlineExceeded
        · left; simp [he]
        · right; simp [he]
      | none =>
        by_cases hn : (conn i b.data).n = b.len
        · simp only [hn, ne_eq, not_true_eq_false, if_false]
          exact ih (i + 1) _
        · right; simp [hn]

theorem writeLoop_writes (conn : Nat → List Nat → WriteResult) (rand : Nat → Nat) :
    ∀ (k i : Nat) (st : ClientState),
      (writeLoop conn rand k i st).1.writes ≤ st.writes + k := by
  intro k
  induction k with
  | zero => intro i st; simp [writeLoop]
  | succ k ih =>
    intro i st
    rw [writeLoop]
    cases hb : randBuffer st.reuse (rand i) with
    | error e => simp
    | ok b =>
      simp only []
      cases hw : (conn i b.data).err with
      | some e =>
        by_cases he : e = .deadlineExceeded
        · simp [he]
        · simp [he]
      | none =>
        by_cases hn : (conn i b.data).n = b.len
        · simp only [hn, ne_eq, not_true_eq_false, if_false]
          have := ih (i + 1) ⟨st.counters,
            ⟨b.mem.take st.reuse.len, b.mem.drop st.reuse.len⟩, st.writes + 1,
            st.sent ++ b.data.take b.len⟩
          simp only [] at this
          omega
        · simp [hn]

theorem freshReuseBuffer_len : bufferSizeMax ≤ freshReuseBuffer.len := by
  simp [freshReuseBuffer, Slice.len]

theorem writeLoop_step_deadline (conn : Nat → List Nat → WriteResult) (rand : Nat → Nat)
    (m i : Nat) (st : ClientState) (hlen : bufferSizeMax ≤ st.reuse.len)
    (hr : rand i < bufferSizeMax - bufferSizeMin)
    (hdl : ∀ buf, (conn i buf).err = some .deadlineExceeded) :
    ∃ st1, writeLoop conn rand (m + 1) i st = (st1, .deadline) ∧
      st1.counters = ⟨st.counters.finished, atomicAddUint64 st.counters.canceled 1⟩ ∧
      st1.writes = st.writes + 1 := by
  obtain ⟨b, hb, _⟩ := randBuffer_fill st.reuse (rand i) hlen hr
  rw [writeLoop, hb]
  simp only [hdl, if_true]
  exact ⟨_, rfl, rfl, rfl⟩

theorem writeLoop_step_fatal (conn : Nat → List Nat → WriteResult) (rand : Nat → Nat)
    (m i : Nat) (st : ClientState) (hlen : bufferSizeMax ≤ st.reuse.len)
    (hr : rand i < bufferSizeMax - bufferSizeMin)
    (hbad : ∀ buf, (conn i buf).err = some .other ∨
      ((conn i buf).err = none ∧ (conn i buf).n ≠ buf.length)) :
    ∃ st1, writeLoop conn rand (m + 1) i st = (st1, .panicked) ∧
      st1.counters = st.counters ∧ st1.writes = st.writes + 1 := by
  obtain ⟨b, hb, _⟩ := randBuffer_fill st.reuse (rand i) hlen hr
  rw [writeLoop, hb]
  rcases hbad b.data with h | ⟨h1, h2⟩
  · simp only [h]
    exact ⟨_, rfl, rfl, rfl⟩
  · have h3 : (conn i b.data).n ≠ b.len := h2
    simp only [h1, h3, ne_eq, not_false_eq_true, if_true]
    exact ⟨_, rfl, rfl, rfl⟩

/-! ## Sessions, handlers and counters -/

/-- C5: in a session where the client writes all `numberWrittenBuffers = 8` buffers
of `randBuffer` in full and the server reads them up to a clean end of stream, the
total the server observes is the sum of the 8 buffer lengths, it lies in
`[numberWrittenBuffers*bufferSizeMin, numberWrittenBuffers*bufferSizeMax]`, that is
`[8192, 4194304]`, and the handler's range check does not fire. -/
theorem session_total_in_range (conn : Nat → List Nat → WriteResult) (rand : Nat → Nat)
    (c : Counters) (reuse : Slice) (hlen : bufferSizeMax ≤ reuse.len)
    (hr : ∀ i, rand i < bufferSizeMax - bufferSizeMin)
    (hfull : ∀ i, i < numberWrittenBuffers → ∀ buf, conn i buf = ⟨buf.length, none⟩) :
    (clientSession conn rand ⟨c, reuse, 0, []⟩).loopExit = .completed ∧
    (clientSession conn rand ⟨c, reuse, 0, []⟩).state.writes = numberWrittenBuffers ∧
    (clientSession conn rand ⟨c, reuse, 0, []⟩).state.sent.length
      = ((List.range numberWrittenBuffers).map fun i => bufferSizeMin + rand i).sum ∧
    numberWrittenBuffers * bufferSizeMin
      ≤ (clientSession conn rand ⟨c, reuse, 0, []⟩).state.sent.length ∧
    (clientSession conn rand ⟨c, reuse, 0, []⟩).state.sent.length
      ≤ numberWrittenBuffers * bufferSizeMax ∧
    8192 ≤ (clientSession conn rand ⟨c, reuse, 0, []⟩).state.sent.length ∧
    (clientSession conn rand ⟨c, reuse, 0, []⟩).state.sent.length ≤ 4194304 ∧
    ∀ c1, (serverHandler c1 ⟨(clientSession conn rand ⟨c, reuse, 0, []⟩).state.sent, none⟩).2
      = .returned := by
  obtain ⟨st8, h1, _, h3, _, h5⟩ := writeLoop_full conn rand numberWrittenBuffers
    ⟨c, reuse, 0, []⟩ hlen hr numberWrittenBuffers (le_refl _) hfull
  have hloop : writeLoop conn rand numberWrittenBuffers 0 ⟨c, reuse, 0, []⟩
      = (st8, .completed) := by
    rw [h1, Nat.sub_self, writeLoop]
  have hres : clientSession conn rand ⟨c, reuse, 0, []⟩ = ⟨st8, .completed, true, .returned⟩ := by
    simp only [clientSession, hloop]
  have hb := sum_range_bounds rand hr numberWrittenBuffers
  have hmin : numberWrittenBuffers * bufferSizeMin = 8192 := by decide
  have hmax : numberWrittenBuffers * bufferSizeMax = 4194304 := by decide
  simp only [List.length_nil, Nat.zero_add] at h3 h5
  rw [hres]
  simp only []
  refine ⟨trivial, h3, h5, ?_, ?_, ?_, ?_, ?_⟩
  · omega
  · omega
  · omega
  · omega
  · intro c1
    have hnot : ¬ (st8.sent.length < numberWrittenBuffers * bufferSizeMin ∨
        st8.sent.length > numberWrittenBuffers * bufferSizeMax) := by omega
    simp only [serverHandler, hnot, if_false]

theorem session_total_in_range_witness :
    bufferSizeMax ≤ freshReuseBuffer.len ∧
    0 < bufferSizeMax - bufferSizeMin ∧
    8192 ≤ (clientSession (fun _ buf => ⟨buf.length, none⟩) (fun _ => 0)
      ⟨⟨0, 0⟩, freshReuseBuffer, 0, []⟩).state.sent.length ∧
    (clientSession (fun _ buf => ⟨buf.length, none⟩) (fun _ => 0)
      ⟨⟨0, 0⟩, freshReuseBuffer, 0, []⟩).state.sent.length ≤ 4194304 :=
  have h := session_total_in_range (fun _ buf => ⟨buf.length, none⟩) (fun _ => 0) ⟨0, 0⟩
    freshReuseBuffer freshReuseBuffer_len
    (fun _ => (by decide : 0 < bufferSizeMax - bufferSizeMin)) (fun _ _ _ => rfl)
  ⟨freshReuseBuffer_len, by decide, h.2.2.2.2.2.1, h.2.2.2.2.2.2.1⟩

/-- C6: the server handler after `io.ReadAll`: on deadline-exceeded it adds 1 to
`canceled` (one `atomic.AddUint64`, so plus one below the largest `uint64`), leaves
`finished` unchanged and returns; on any other error it panics and changes no
counter; on a clean end with a total outside
`[numberWrittenBuffers*bufferSizeMin, numberWrittenBuffers*bufferSizeMax]` it panics
and changes no counter; on a clean end with a total inside that range it adds 1 to
`finished` and leaves `canceled` unchanged. -/
theorem serverHandler_outcomes (c : Counters) (buf : List Nat) :
    (serverHandler c ⟨buf, some .deadlineExceeded⟩
        = (⟨c.finished, atomicAddUint64 c.canceled 1⟩, .returned) ∧
      (c.canceled + 1 < 2 ^ 64 →
        (serverHandler c ⟨buf, some .deadlineExceeded⟩).1.canceled = c.canceled + 1)) ∧
    serverHandler c ⟨buf, some .other⟩ = (c, .panicked) ∧
    ((buf.length < numberWrittenBuffers * bufferSizeMin ∨
        numberWrittenBuffers * bufferSizeMax < buf.length) →
      serverHandler c ⟨buf, none⟩ = (c, .panicked)) ∧
    ((numberWrittenBuffers * bufferSizeMin ≤ buf.length ∧
        buf.length ≤ numberWrittenBuffers * bufferSizeMax) →
      serverHandler c ⟨buf, none⟩ = (⟨atomicAddUint64 c.finished 1, c.canceled⟩, .returned) ∧
      (c.finished + 1 < 2 ^ 64 →
        (serverHandler c ⟨buf, none⟩).1.finished = c.finished + 1)) := by
  refine ⟨⟨by simp [serverHandler], ?_⟩, by simp [serverHandler], ?_, ?_⟩
  · intro h
    simp only [serverHandler, if_true, atomicAddUint64]
    exact Nat.mod_eq_of_lt h
  · intro h
    have h1 : buf.length < numberWrittenBuffers * bufferSizeMin ∨
        buf.length > numberWrittenBuffers * bufferSizeMax := h
    simp only [serverHandler, h1, if_true]
  · intro h
    have h1 : ¬ (buf.length < numberWrittenBuffers * bufferSizeMin ∨
        buf.length > numberWrittenBuffers * bufferSizeMax) := by omega
    refine ⟨by simp only [serverHandler, h1, if_false], ?_⟩
    intro h2
    simp only [serverHandler, h1, if_false, atomicAddUint64]
    exact Nat.mod_eq_of_lt h2

theorem serverHandler_outcomes_witness :
    (0 + 1 < 2 ^ 64 →
      (serverHandler ⟨0, 0⟩ ⟨List.replicate 8192 0, some .deadlineExceeded⟩).1.canceled = 0 + 1) ∧
    ((numberWrittenBuffers * bufferSizeMin ≤ (List.replicate 8192 0).length ∧
        (List.replicate 8192 0).length ≤ numberWrittenBuffers * bufferSizeMax) ∧
      serverHandler ⟨0, 0⟩ ⟨List.replicate 8192 0, none⟩
        = (⟨atomicAddUint64 0 1, 0⟩, .returned)) :=
  have h := serverHandler_outcomes ⟨0, 0⟩ (List.replicate 8192 0)
  have hin : numberWrittenBuffers * bufferSizeMin ≤ (List.replicate 8192 0).length ∧
      (List.replicate 8192 0).length ≤ numberWrittenBuffers * bufferSizeMax := by
    rw [List.length_replicate]; decide
  ⟨h.1.2, hin, (h.2.2.2 hin).1⟩

/-- C7: one client session of at most `numberWrittenBuffers = 8` writes.  If write
`j` fails with deadline-exceeded after full writes, the client adds 1 to `canceled`
(one `atomic.AddUint64`), performs no further write and closes the connection; if
write `j` fails with another error, or returns no error and a count different from
`len(buf)`, the client panics; if all 8 writes succeed in full, the client changes
no counter.  In every case `finished` is unchanged and `canceled` is added to at
most once. -/
theorem clientSession_outcomes (conn : Nat → List Nat → WriteResult) (rand : Nat → Nat)
    (st : ClientState) (hlen : bufferSizeMax ≤ st.reuse.len)
    (hr : ∀ i, rand i < bufferSizeMax - bufferSizeMin) :
    (∀ j, j < numberWrittenBuffers →
      (∀ i, i < j → ∀ buf, conn i buf = ⟨buf.length, none⟩) →
      (∀ buf, (conn j buf).err = some .deadlineExceeded) →
      (clientSession conn rand st).state.counters
          = ⟨st.counters.finished, atomicAddUint64 st.counters.canceled 1⟩ ∧
        (st.counters.canceled + 1 < 2 ^ 64 →
          (clientSession conn rand st).state.counters.canceled = st.counters.canceled + 1) ∧
        (clientSession conn rand st).state.writes = st.writes + (j + 1) ∧
        (clientSession conn rand st).loopExit = .deadline ∧
        (clientSession conn rand st).closed = true ∧
        (clientSession conn rand st).exit = .returned) ∧
    (∀ j, j < numberWrittenBuffers →
      (∀ i, i < j → ∀ buf, conn i buf = ⟨buf.length, none⟩) →
      (∀ buf, (conn j buf).err = some .other ∨
        ((conn j buf).err = none ∧ (conn j buf).n ≠ buf.length)) →
      (clientSession conn rand st).exit = .panicked ∧
        (clientSession conn rand st).closed = false ∧
        (clientSession conn rand st).state.counters = st.counters ∧
        (clientSession conn rand st).state.writes = st.writes + (j + 1)) ∧
    ((∀ i, i < numberWrittenBuffers → ∀ buf, conn i buf = ⟨buf.length, none⟩) →
      (clientSession conn rand st).state.counters = st.counters ∧
        (clientSession conn rand st).state.writes = st.writes + numberWrittenBuffers ∧
        (clientSession conn rand st).loopExit = .completed ∧
        (clientSession conn rand st).closed = true ∧
        (clientSession conn rand st).exit = .returned) ∧
    ((clientSession conn rand st).state.counters.finished = st.counters.finished ∧
      ((clientSession conn rand st).state.counters.canceled = st.counters.canceled ∨
        (clientSession conn rand st).state.counters.canceled
          = atomicAddUint64 st.counters.canceled 1) ∧
      (clientSession conn rand st).state.writes ≤ st.writes + numberWrittenBuffers) := by
  refine ⟨?_, ?_, ?_, ?_⟩
  · intro j hj hfull hdl
    obtain ⟨stj, h1, h2, h3, h4, _⟩ := writeLoop_full conn rand numberWrittenBuffers st hlen hr
      j (by omega) hfull
    obtain ⟨m, hm⟩ : ∃ m, numberWrittenBuffers - j = m + 1 :=
      ⟨numberWrittenBuffers - j - 1, by omega⟩
    obtain ⟨st1, g1, g2, g3⟩ := writeLoop_step_deadline conn rand m j stj (by omega) (hr j) hdl
    have hloop : writeLoop conn rand numberWrittenBuffers 0 st = (st1, .deadline) := by
      rw [h1, hm, g1]
    have hres : clientSession conn rand st = ⟨st1, .deadline, true, .returned⟩ := by
      simp only [clientSession, hloop]
    rw [hres]
    refine ⟨by rw [g2, h2], ?_, by simp only []; omega, rfl, rfl, rfl⟩
    intro hlt
    simp only [g2, h2, atomicAddUint64]
    exact Nat.mod_eq_of_lt hlt
  · intro j hj hfull hbad
    obtain ⟨stj, h1, h2, h3, h4, _⟩ := writeLoop_full conn rand numberWrittenBuffers st hlen hr
      j (by omega) hfull
    obtain ⟨m, hm⟩ : ∃ m, numberWrittenBuffers - j = m + 1 :=
      ⟨numberWrittenBuffers - j - 1, by omega⟩
    obtain ⟨st1, g1, g2, g3⟩ := writeLoop_step_fatal conn rand m j stj (by omega) (hr j) hbad
    have hloop : writeLoop conn rand numberWrittenBuffers 0 st = (st1, .panicked) := by
      rw [h1, hm, g1]
    have hres : clientSession conn rand st = ⟨st1, .panicked, false, .panicked⟩ := by
      simp only [clientSession, hloop]
    rw [hres]
    exact ⟨rfl, rfl, by rw [g2, h2], by simp only []; omega⟩
  · intro hfull
    obtain ⟨st8, h1, h2, h3, _, _⟩ := writeLoop_full conn rand numberWrittenBuffers st hlen hr
      numberWrittenBuffers (le_refl _) hfull
    have hloop : writeLoop conn rand numberWrittenBuffers 0 st = (st8, .completed) := by
      rw [h1, Nat.sub_self, writeLoop]
    have hres : clientSession conn rand st = ⟨st8, .completed, true, .returned⟩ := by
      simp only [clientSession, hloop]
    rw [hres]
    exact ⟨h2, h3, rfl, rfl, rfl⟩
  · have hst : (clientSession conn rand st).state
        = (writeLoop conn rand numberWrittenBuffers 0 st).1 := by
      simp only [clientSession]
      split <;> rfl
    rw [hst]
    have hw := writeLoop_writes conn rand numberWrittenBuffers 0 st
    rcases writeLoop_counters conn rand numberWrittenBuffers 0 st with ⟨_, h⟩ | ⟨_, h⟩
    · rw [h]; exact ⟨rfl, Or.inr rfl, hw⟩
    · rw [h]; exact ⟨rfl, Or.inl rfl, hw⟩

theorem clientSession_outcomes_witness :
    bufferSizeMax ≤ freshReuseBuffer.len ∧ 0 < bufferSizeMax - bufferSizeMin ∧
    0 < numberWrittenBuffers ∧
    (clientSession (fun _ _ => ⟨0, some .deadlineExceeded⟩) (fun _ => 0)
        ⟨⟨0, 0⟩, freshReuseBuffer, 0, []⟩).state.counters = ⟨0, atomicAddUint64 0 1⟩ ∧
    (clientSession (fun _ _ => ⟨0, some .deadlineExceeded⟩) (fun _ => 0)
        ⟨⟨0, 0⟩, freshReuseBuffer, 0, []⟩).state.writes = 0 + (0 + 1) ∧
    (clientSession (fun _ _ => ⟨0, some .deadlineExceeded⟩) (fun _ => 0)
        ⟨⟨0, 0⟩, freshReuseBuffer, 0, []⟩).closed = true :=
  have h := (clientSession_outcomes (fun _ _ => ⟨0, some .deadlineExceeded⟩) (fun _ => 0)
    ⟨⟨0, 0⟩, freshReuseBuffer, 0, []⟩ freshReuseBuffer_len
    (fun _ => (by decide : 0 < bufferSizeMax - bufferSizeMin))).1 0 (by decide)
    (fun i hi => absurd hi (Nat.not_lt_zero i)) (fun _ => rfl)
  ⟨freshReuseBuffer_len, by decide, by decide, h.1, h.2.2.1, h.2.2.2.2.1⟩

/-! ## The counters as a transition system -/

theorem clientSession_loopExit (conn : Nat → List Nat → WriteResult) (rand : Nat → Nat)
    (st : ClientState) :
    (clientSession conn rand st).loopExit = (writeLoop conn rand numberWrittenBuffers 0 st).2 := by
  simp only [clientSession]
  split
  · next h => exact h.symm
  · rfl

theorem clientSession_state (conn : Nat → List Nat → WriteResult) (rand : Nat → Nat)
    (st : ClientState) :
    (clientSession conn rand st).state = (writeLoop conn rand numberWrittenBuffers 0 st).1 := by
  simp only [clientSession]
  split <;> rfl

theorem step_client (c c1 : Counters) (conn : Nat → List Nat → WriteResult)
    (rand : Nat → Nat) (reuse : Slice) (h : step c (.client conn rand reuse) = some c1) :
    ((clientSession conn rand ⟨c, reuse, 0, []⟩).loopExit = .deadline ∧
        c1 = ⟨c.finished, atomicAddUint64 c.canceled 1⟩) ∨
      ((clientSession conn rand ⟨c, reuse, 0, []⟩).loopExit ≠ .deadline ∧ c1 = c) := by
  simp only [step] at h
  split at h
  · simp only [Option.some.injEq] at h
    rw [← h, clientSession_loopExit, clientSession_state]
    exact writeLoop_counters conn rand numberWrittenBuffers 0 ⟨c, reuse, 0, []⟩
  · exact absurd h (by simp)

theorem step_server (c c1 : Counters) (r : ReadAllResult) (h : step c (.server r) = some c1) :
    (r.err = some .deadlineExceeded ∧ c1 = ⟨c.finished, atomicAddUint64 c.canceled 1⟩) ∨
      (r.err = none ∧ c1 = ⟨atomicAddUint64 c.finished 1, c.canceled⟩) := by
  obtain ⟨buf, err⟩ := r
  simp only [step, serverHandler] at h
  cases err with
  | some e =>
    cases e with
    | deadlineExceeded =>
      left
      simp only [if_true, Option.some.injEq] at h
      exact ⟨rfl, h.symm⟩
    | other => simp at h
  | none =>
    right
    simp only [] at h
    split at h
    · simp at h
    · simp only [if_true, Option.some.injEq] at h
      exact ⟨rfl, h.symm⟩

theorem atomicAddUint64_le (x : Nat) : atomicAddUint64 x 1 ≤ x + 1 :=
  Nat.mod_le _ _

theorem step_growth (c c1 : Counters) (e : Event) (h : step c e = some c1) :
    c1.finished ≤ c.finished + 1 ∧ c1.canceled ≤ c.canceled + 1 := by
  cases e with
  | client conn rand reuse =>
    rcases step_client c c1 conn rand reuse h with ⟨_, rfl⟩ | ⟨_, rfl⟩
    · exact ⟨Nat.le_succ _, atomicAddUint64_le _⟩
    · exact ⟨Nat.le_succ _, Nat.le_succ _⟩
  | server r =>
    rcases step_server c c1 r h with ⟨_, rfl⟩ | ⟨_, rfl⟩
    · exact ⟨Nat.le_succ _, atomicAddUint64_le _⟩
    · exact ⟨atomicAddUint64_le _, Nat.le_succ _⟩

theorem run_growth (es : List Event) : ∀ (c c1 : Counters), run c es = some c1 →
    c1.finished ≤ c.finished + es.length ∧ c1.canceled ≤ c.canceled + es.length := by
  induction es with
  | nil =>
    intro c c1 h
    simp only [run, Option.some.injEq] at h
    rw [← h]
    exact ⟨Nat.le_refl _, Nat.le_refl _⟩
  | cons e es ih =>
    intro c c1 h
    rw [run] at h
    cases hs : step c e with
    | none => rw [hs] at h; simp at h
    | some c2 =>
      rw [hs] at h
      have h1 := step_growth c c2 e hs
      have h2 := ih c2 c1 h
      simp only [List.length_cons]
      omega

/-- C8: counter monotonicity.  In every state the system reaches from the start by
fewer than `2^64 - 1` events (each event is a whole client session or a whole
server handler, bounded below by the 50 ms of a deadline or by a full session, so
no run of the program gets further), every step leaves `finished` and `canceled`
no smaller than before; a server read or a client write that hits the deadline
raises `canceled` by exactly 1 and leaves `finished`, a server read that ends
cleanly within bounds raises `finished` by exactly 1 and leaves `canceled`, and a
client session without a deadline changes neither. -/
theorem counters_monotone (es : List Event) (c c1 : Counters) (e : Event)
    (hlen : es.length < 2 ^ 64 - 1) (hrun : run initialCounters es = some c)
    (hstep : step c e = some c1) :
    c.finished ≤ c1.finished ∧ c.canceled ≤ c1.canceled ∧
    (∀ r, e = .server r → r.err = some .deadlineExceeded →
      c1.canceled = c.canceled + 1 ∧ c1.finished = c.finished) ∧
    (∀ r, e = .server r → r.err = none →
      c1.finished = c.finished + 1 ∧ c1.canceled = c.canceled) ∧
    (∀ conn rand reuse, e = .client conn rand reuse →
      (clientSession conn rand ⟨c, reuse, 0, []⟩).loopExit = .deadline →
      c1.canceled = c.canceled + 1 ∧ c1.finished = c.finished) ∧
    (∀ conn rand reuse, e = .client conn rand reuse →
      (clientSession conn rand ⟨c, reuse, 0, []⟩).loopExit ≠ .deadline → c1 = c) := by
  have hg := run_growth es initialCounters c hrun
  simp only [initialCounters, Nat.zero_add] at hg
  have hf : atomicAddUint64 c.finished 1 = c.finished + 1 :=
    Nat.mod_eq_of_lt (by omega)
  have hc : atomicAddUint64 c.canceled 1 = c.canceled + 1 :=
    Nat.mod_eq_of_lt (by omega)
  have hcases : c1 = c ∨ c1 = ⟨c.finished, c.canceled + 1⟩ ∨
      c1 = ⟨c.finished + 1, c.canceled⟩ := by
    cases e with
    | client conn rand reuse =>
      rcases step_client c c1 conn rand reuse hstep with ⟨_, h⟩ | ⟨_, h⟩
      · rw [hc] at h; exact Or.inr (Or.inl h)
      · exact Or.inl h
    | server r =>
      rcases step_server c c1 r hstep with ⟨_, h⟩ | ⟨_, h⟩
      · rw [hc] at h; exact Or.inr (Or.inl h)
      · rw [hf] at h; exact Or.inr (Or.inr h)
  refine ⟨?_, ?_, ?_, ?_, ?_, ?_⟩
  · rcases hcases with h | h | h
    · rw [h]
    · rw [h]
    · rw [h]; exact Nat.le_succ _
  · rcases hcases with h | h | h
    · rw [h]
    · rw [h]; exact Nat.le_succ _
    · rw [h]
  · intro r he hr
    subst he
    rcases step_server c c1 r hstep with ⟨_, h⟩ | ⟨h0, _⟩
    · rw [h, hc]; exact ⟨rfl, rfl⟩
    · rw [hr] at h0; exact absurd h0 (by simp)
  · intro r he hr
    subst he
    rcases step_server c c1 r hstep with ⟨h0, _⟩ | ⟨_, h⟩
    · rw [hr] at h0; exact absurd h0 (by simp)
    · rw [h, hf]; exact ⟨rfl, rfl⟩
  · intro conn rand reuse he hx
    subst he
    rcases step_client c c1 conn rand reuse hstep with ⟨_, h⟩ | ⟨h0, _⟩
    · rw [h, hc]; exact ⟨rfl, rfl⟩
    · exact absurd hx h0
  · intro conn rand reuse he hx
    subst he
    rcases step_client c c1 conn rand reuse hstep with ⟨h0, _⟩ | ⟨_, h⟩
    · exact absurd h0 hx
    · exact h

theorem counters_monotone_witness :
    ([] : List Event).length < 2 ^ 64 - 1 ∧
    run initialCounters [] = some initialCounters ∧
    step initialCounters (.server ⟨[], some .deadlineExceeded⟩) = some ⟨0, 1⟩ ∧
    initialCounters.finished ≤ (⟨0, 1⟩ : Counters).finished ∧
    initialCounters.canceled ≤ (⟨0, 1⟩ : Counters).canceled :=
  have hlen : ([] : List Event).length < 2 ^ 64 - 1 := by decide
  have hrun : run initialCounters [] = some initialCounters := rfl
  have hstep : step initialCounters (.server ⟨[], some .deadlineExceeded⟩) = some ⟨0, 1⟩ := by
    decide
  have h := counters_monotone [] initialCounters ⟨0, 1⟩ _ hlen hrun hstep
  ⟨hlen, hrun, hstep, h.1, h.2.1⟩

end WindowsPoll

namespace GoModSize

/-! ## Lemmas on `caseEncode` -/

theorem char_isUpper_iff (c : Char) : c.isUpper = decide (65 ≤ c.toNat ∧ c.toNat ≤ 90) := by
  have h1 : (c.val ≥ 65) ↔ 65 ≤ c.toNat := by
    show (65 : UInt32) ≤ c.val ↔ _
    rw [UInt32.le_def, BitVec.le_def]; rfl
  have h2 : (c.val ≤ 90) ↔ c.toNat ≤ 90 := by
    rw [UInt32.le_def, BitVec.le_def]; rfl
  simp only [Char.isUpper, h1, h2, Bool.decide_and]

theorem isUpper_ascii (T : UnicodeTables) (c : Char) (h : c.toNat ≤ 0x7F) :
    isUpper T c = c.isUpper := by
  rw [char_isUpper_iff]
  simp only [isUpper, h, if_true]

theorem toLower_ascii (T : UnicodeTables) (c : Char) (h : c.toNat ≤ 0x7F) :
    toLower T c = c.toLower := by
  simp only [toLower, h, if_true, Char.toLower]

theorem toLower_not_upper (c : Char) (h : c.isUpper = true) : c.toLower.isUpper = false := by
  rw [char_isUpper_iff] at h
  simp only [decide_eq_true_eq] at h
  have hc : c = Char.ofNat c.toNat := (Char.ofNat_toNat c).symm
  obtain ⟨h1, h2⟩ := h
  generalize c.toNat = n at hc h1 h2
  subst hc
  interval_cases n <;> decide

theorem caseEncode_foldl (T : UnicodeTables) (s acc : List Char) :
    s.foldl (fun b r => if isUpper T r then (b ++ ['!']) ++ [toLower T r] else b ++ [r]) acc
      = acc ++ s.flatMap fun r => if isUpper T r then ['!', toLower T r] else [r] := by
  induction s generalizing acc with
  | nil => simp
  | cons r s ih =>
    rw [List.foldl_cons, ih, List.flatMap_cons]
    by_cases h : isUpper T r = true
    · simp [h]
    · simp [h]

theorem flatMap_ascii (T : UnicodeTables) (s : List Char) (hs : ∀ c ∈ s, c.toNat ≤ 0x7F) :
    (s.flatMap fun r => if isUpper T r then ['!', toLower T r] else [r])
      = s.flatMap fun r => if r.isUpper then ['!', r.toLower] else [r] := by
  induction s with
  | nil => rfl
  | cons r s ih =>
    have hr := hs r (List.mem_cons_self _ _)
    rw [List.flatMap_cons, List.flatMap_cons, ih (fun c hc => hs c (List.mem_cons_of_mem _ hc)),
      isUpper_ascii T r hr, toLower_ascii T r hr]

theorem flatMap_no_upper (s : List Char) :
    ∀ c ∈ (s.flatMap fun r => if r.isUpper then ['!', r.toLower] else [r]),
      c.isUpper = false := by
  intro c hc
  rw [List.mem_flatMap] at hc
  obtain ⟨r, _, hcr⟩ := hc
  by_cases h : r.isUpper = true
  · simp only [h, if_true, List.mem_cons, List.mem_singleton, List.not_mem_nil, or_false] at hcr
    rcases hcr with rfl | rfl
    · decide
    · exact toLower_not_upper r h
  · have h0 : r.isUpper = false := by simpa using h
    simp only [h0, Bool.false_eq_true, if_false, List.mem_singleton] at hcr
    subst hcr
    exact h0

theorem flatMap_length (s : List Char) :
    (s.flatMap fun r => if r.isUpper then ['!', r.toLower] else [r]).length
      = s.length + s.countP Char.isUpper := by
  induction s with
  | nil => rfl
  | cons r s ih =>
    rw [List.flatMap_cons, List.length_append, ih, List.countP_cons, List.length_cons]
    cases h : r.isUpper with
    | true => simp only [if_true, List.length_cons, List.length_nil]; omega
    | false => simp only [Bool.false_eq_true, if_false, List.length_cons, List.length_nil]; omega

/-! ## `caseEncode` and `fetchSize` -/

/-- C9: `caseEncode` turns "fooBar" into "foo!bar"; on a string of ASCII characters
it replaces each uppercase letter by `'!'` followed by its lowercase form and copies
every other character unchanged, in order, so the output has no uppercase letter and
its length is the input length plus the number of uppercase letters. -/
theorem caseEncode_ascii (T : UnicodeTables) (s : List Char)
    (hs : ∀ c ∈ s, c.toNat ≤ 0x7F) :
    caseEncode T "fooBar".toList = "foo!bar".toList ∧
    caseEncode T s = (s.flatMap fun r => if r.isUpper then ['!', r.toLower] else [r]) ∧
    (∀ c ∈ caseEncode T s, c.isUpper = false) ∧
    (caseEncode T s).length = s.length + s.countP Char.isUpper := by
  have h : caseEncode T s
      = s.flatMap fun r => if r.isUpper then ['!', r.toLower] else [r] := by
    unfold caseEncode
    rw [caseEncode_foldl, List.nil_append, flatMap_ascii T s hs]
  refine ⟨?_, h, ?_, ?_⟩
  · simp [caseEncode, isUpper, toLower]
  · rw [h]; exact flatMap_no_upper s
  · rw [h]; exact flatMap_length s

theorem caseEncode_ascii_witness :
    (∀ c ∈ "goModSize".toList, c.toNat ≤ 0x7F) ∧
    caseEncode ⟨fun _ => false, id⟩ "goModSize".toList
      = ("goModSize".toList.flatMap fun r => if r.isUpper then ['!', r.toLower] else [r]) ∧
    (caseEncode ⟨fun _ => false, id⟩ "goModSize".toList).length
      = "goModSize".toList.length + "goModSize".toList.countP Char.isUpper :=
  have hs : ∀ c ∈ "goModSize".toList, c.toNat ≤ 0x7F := by decide
  have h := caseEncode_ascii ⟨fun _ => false, id⟩ "goModSize".toList hs
  ⟨hs, h.2.1, h.2.2.2⟩

/-- C10: with `GOPROXY=https://a.example,https://b.example`, when `http.Head` on the
first proxy fails with a transport error (nil response), `fetchSize` dereferences
the nil response and panics before it logs or tries the second proxy; when the
first proxy answers `410 Gone` instead, `fetchSize` logs it and returns the
`Content-Length` of the second proxy. -/
theorem fetchSize_transport_error (T : UnicodeTables) :
    fetchSize T
        (fun i _ => if i = 0 then ⟨none, some "connection refused".toList⟩
          else ⟨some ⟨200, 1234⟩, none⟩)
        "https://a.example,https://b.example".toList "m".toList "v1".toList
      = .nilDereference [] ∧
    fetchSize T
        (fun i _ => if i = 0 then ⟨some ⟨410, -1⟩, none⟩ else ⟨some ⟨200, 1234⟩, none⟩)
        "https://a.example,https://b.example".toList "m".toList "v1".toList
      = .returned 1234 none
          [⟨"https://a.example".toList ++ "/".toList ++ caseEncode T "m".toList
            ++ "/@v/".toList ++ caseEncode T "v1".toList ++ ".zip".toList, .status 410⟩] := by
  constructor
  · simp [fetchSize, splitComma, fetchLoop, startsWith]
  · simp [fetchSize, splitComma, fetchLoop, startsWith]

end GoModSize
